import Mathlib

set_option maxRecDepth 2000

/-!
Shallow embedding of the `hola_dict` divisor-search compiler
(`src/compiler/src/main.rs`, `fn run`), together with proofs of the
behavioural properties stated in the natural-language specification.

The embedding works at the granularity of signed 32-bit values: the input
database is a `List Int` of hash values (45000 per row), the calculation
cache is a `List Int` of persisted results together with a read cursor, and
the output is a `List Nat` of 16-bit values.  Machine arithmetic that
matters is made explicit: the Rust `%` operator on `i32` is `Int.tmod`
(truncated remainder), the `as u16` cast is reduction modulo 2^16, and the
division-by-zero panic of `hash % 0` is modelled as an explicit fatal
outcome.  The unbounded candidate loop of the search engine is given an
explicit fuel parameter; running out of fuel models non-termination and is
kept distinct from every error the program itself can produce.
-/

namespace HolaDict

/-! ### Data model and operations (embedded from `main.rs`) -/

/-- Fatal panics of the process: the `assert!(value <= u16::MAX)` failure in
the encoder and the `hash % 0` division-by-zero panic in the search engine.
A panic aborts the process and is distinct from every `Err(..)` value the
Rust `run` function can return. -/
inductive PanicKind
  | assertOverflow
  | divisionByZero
deriving DecidableEq

/-- I/O error roles, mirroring the `Error` enum of `main.rs` (only the
variants reachable inside the embedded fragment are listed). -/
inductive IoKind
  | inDbSeek
  | inDbRead
  | cacheRead
  | cacheWrite
  | outDbWrite
deriving DecidableEq

/-- Outcomes that end a run early: a recoverable `Err(..)` tagged by file
role, a fatal panic, or fuel exhaustion (modelling the unbounded spinning
of the search loop, which the source never interrupts). -/
inductive RunError
  | ioErr : IoKind → RunError
  | fatal : PanicKind → RunError
  | fuelOut
deriving DecidableEq

/-- Stopping reasons of the candidate search loop. -/
inductive SearchStop
  | divByZero
  | fuelOut
deriving DecidableEq

/-- One worker's inner test loop (`for i in 0 .. words_count { if hash %
current_div == 0 { found = true; break } }`): `some true` means the
candidate divides no hash value (the worker would store it), `some false`
means some hash is divisible (candidate rejected), and `none` models the
Rust panic of `hash % 0` when the candidate is zero, which fires on the
first hash value tested. -/
def divPasses (hashes : List Int) (d : Int) : Option Bool :=
  match hashes with
  | [] => some true
  | h :: rest =>
    if d = 0 then none
    else if Int.tmod h d = 0 then some false
    else divPasses rest d

/-- The sequential (single-worker) divisor search: candidates `d`, `d+1`,
... are tested in order until one passes, mirroring the shared
`fetch_add` counter of `main.rs` when one thread is configured.  `fuel`
bounds the number of candidates tried; exhausting it models the unbounded
spinning of the source loop. -/
def searchDiv (hashes : List Int) : Int → Nat → Except SearchStop Int
  | _, 0 => .error .fuelOut
  | d, fuel + 1 =>
    match divPasses hashes d with
    | none => .error .divByZero
    | some true => .ok d
    | some false => searchDiv hashes (d + 1) fuel

/-- Mutable state of `run` threaded between records: the in-memory results
buffer `divs_found`, the running minimum and maximum (initialised to
`i32::MAX` and `-1`), and the calculation-cache file modelled as its list
of 32-bit entries plus the read/write cursor position. -/
structure RunState where
  divs_found : List Int
  min_div : Int
  max_div : Int
  cacheEntries : List Int
  cachePos : Nat
deriving DecidableEq

/-- Initial state of a run whose cache file currently holds `c0`. -/
def initState (c0 : List Int) : RunState :=
  ⟨[], 2147483647, -1, c0, 0⟩

/-- The guarded minimum update applied to a cached value
(`if cached_div > 0 && cached_div < min_div { min_div = cached_div }`). -/
def gminStep (m d : Int) : Int :=
  if 0 < d ∧ d < m then d else m

/-- The guarded maximum update applied to a cached value
(`if cached_div > 0 && cached_div > max_div { max_div = cached_div }`). -/
def gmaxStep (m d : Int) : Int :=
  if 0 < d ∧ m < d then d else m

/-- Guarded minimum fold over a list of results. -/
def gminFold (m : Int) (l : List Int) : Int :=
  l.foldl gminStep m

/-- Guarded maximum fold over a list of results. -/
def gmaxFold (m : Int) (l : List Int) : Int :=
  l.foldl gmaxStep m

/-- Processing of one record (one loop iteration over `chunk`): first the
cache is polled for a pending value, which on success is accepted
unconditionally (with the `> 0`-guarded min/max updates); on end-of-file
the zero-hash fast path is checked, and otherwise the search engine runs,
its result being tracked unguarded and appended to both the results buffer
and the cache file. -/
def processRecord (fuel ds : Nat) (st : RunState) (hashes : List Int) :
    Except RunError RunState :=
  if st.cachePos < st.cacheEntries.length then
    let v := st.cacheEntries.getD st.cachePos 0
    .ok { st with
      divs_found := st.divs_found ++ [v],
      min_div := gminStep st.min_div v,
      max_div := gmaxStep st.max_div v,
      cachePos := st.cachePos + 1 }
  else if hashes.contains 0 then
    .ok { st with
      divs_found := st.divs_found ++ [0],
      cacheEntries := st.cacheEntries ++ [0],
      cachePos := st.cachePos + 1 }
  else
    match searchDiv hashes (ds : Int) fuel with
    | .error .divByZero => .error (.fatal .divisionByZero)
    | .error .fuelOut => .error .fuelOut
    | .ok r => .ok { st with
        divs_found := st.divs_found ++ [r],
        min_div := if r < st.min_div then r else st.min_div,
        max_div := if st.max_div < r then r else st.max_div,
        cacheEntries := st.cacheEntries ++ [r],
        cachePos := st.cachePos + 1 }

/-- Sequential processing of a list of records. -/
def processRecords (fuel ds : Nat) (st : RunState) :
    List (List Int) → Except RunError RunState
  | [] => .ok st
  | hs :: rest =>
    match processRecord fuel ds st hs with
    | .error e => .error e
    | .ok st' => processRecords fuel ds st' rest

/-- The result a record yields when it is computed fresh (cache miss):
sentinel `0` on the zero-hash fast path, otherwise the search result. -/
def freshResult (fuel ds : Nat) (hashes : List Int) : Except RunError Int :=
  if hashes.contains 0 then .ok 0
  else
    match searchDiv hashes (ds : Int) fuel with
    | .error .divByZero => .error (.fatal .divisionByZero)
    | .error .fuelOut => .error .fuelOut
    | .ok r => .ok r

/-- Error-propagating map, used to describe the sequence of fresh results
of a record list. -/
def mapExcept (f : List Int → Except RunError Int) :
    List (List Int) → Except RunError (List Int)
  | [] => .ok []
  | x :: xs =>
    match f x with
    | .error e => .error e
    | .ok r =>
      match mapExcept f xs with
      | .error e => .error e
      | .ok rs => .ok (r :: rs)

/-- The value the encoder computes for one raw result: sentinel `0` maps to
`0`, every other result is rebased against the tracked minimum. -/
def encodeValue (min_div d : Int) : Int :=
  if d = 0 then 0 else d - min_div + 1

/-- The output encoder: each rebased value is asserted to be at most
`u16::MAX` (a violation is the fatal `assert!` panic) and then written as
`value as u16`, i.e. reduced modulo 2^16. -/
def encode (min_div : Int) : List Int → Except RunError (List Nat)
  | [] => .ok []
  | d :: rest =>
    if encodeValue min_div d ≤ 65535 then
      match encode min_div rest with
      | .error e => .error e
      | .ok out => .ok ((Int.emod (encodeValue min_div d) 65536).toNat :: out)
    else .error (.fatal .assertOverflow)

structure EngineTrace where
  claimCount : Nat
  storeEvents : List Nat

/-- Validity of a search-episode trace against the record's hash values and
the configured start divisor. -/
def TraceValid (hashes : List Int) (ds : Nat) (tr : EngineTrace) : Prop :=
  tr.storeEvents ≠ [] ∧
    ∀ k ∈ tr.storeEvents,
      k < tr.claimCount ∧ divPasses hashes ((ds : Int) + (k : Int)) = some true

/-- The divisor the orchestrator reads back after joining the pool: the
candidate of the last store event. -/
def traceResult (ds : Nat) (tr : EngineTrace) : Int :=
  (ds : Int) + ((tr.storeEvents.getLastD 0 : Nat) : Int)

/-- The per-window reader: having seeked the input back to its global start,
it reads one full 45000-value row buffer per row (failing with an
`InDbRead` error when fewer values are available), positions an in-memory
cursor at `offset` inside the buffer and reads the 8000-value column
sub-range from it (failing when the buffer ends before 8000 values are
read).  Rows are concatenated in order, so the window sample stores the
record of column `chunk` at positions `i * 8000 + chunk`. -/
def readWindow (file : List Int) : Nat → Nat → Except RunError (List Int)
  | 0, _ => .ok []
  | wc + 1, offset =>
    if 45000 ≤ file.length then
      if offset + 8000 ≤ 45000 then
        match readWindow (file.drop 45000) wc offset with
        | .error e => .error e
        | .ok rest => .ok (((file.take 45000).drop offset).take 8000 ++ rest)
      else .error (.ioErr .inDbRead)
    else .error (.ioErr .inDbRead)

/-- The hash values of the record at local column `chunk` of a window
sample: `seed_sample[i * chunk_size + chunk]` for each row `i`. -/
def recordColumn (sample : List Int) (wc chunk : Nat) : List Int :=
  (List.range wc).map (fun i => sample.getD (i * 8000 + chunk) 0)

/-- The records of one window, in processing order `chunk = 0 .. 7999`. -/
def windowRecords (sample : List Int) (wc : Nat) : List (List Int) :=
  (List.range 8000).map (recordColumn sample wc)

/-- Records delivered by a sequence of window passes. -/
def windowsRecords (file : List Int) (wc : Nat) :
    List Nat → Except RunError (List (List Int))
  | [] => .ok []
  | ci :: rest =>
    match readWindow file wc (ci * 8000) with
    | .error e => .error e
    | .ok sample =>
      match windowsRecords file wc rest with
      | .error e => .error e
      | .ok rs => .ok (windowRecords sample wc ++ rs)

/-- The chunked main loop: for every window index, re-read the window from
the input and process its 8000 records, threading the run state (and with
it the cache) through all windows. -/
def runWindows (file : List Int) (wc ds fuel : Nat) :
    List Nat → RunState → Except RunError RunState
  | [], st => .ok st
  | ci :: rest, st =>
    match readWindow file wc (ci * 8000) with
    | .error e => .error e
    | .ok sample =>
      match processRecords fuel ds st (windowRecords sample wc) with
      | .error e => .error e
      | .ok st' => runWindows file wc ds fuel rest st'

/-- All records of a run over `file`, with `words_count` derived from the
input size exactly as in the source (`in_db_size / 45000 / 4` over bytes,
i.e. value count / 45000). -/
def pipelineRecords (file : List Int) : Except RunError (List (List Int)) :=
  windowsRecords file (file.length / 45000) [0, 1, 2, 3]

/-- The complete embedded run: four window passes of 8000 records each over
the cache-carrying state, followed by the rebasing encoder. -/
def fullRun (file : List Int) (ds fuel : Nat) (c0 : List Int) :
    Except RunError (List Nat) :=
  match runWindows file (file.length / 45000) ds fuel [0, 1, 2, 3] (initState c0) with
  | .error e => .error e
  | .ok st => encode st.min_div st.divs_found

/-- A run interrupted after its first `N` records: the cache file it leaves
behind. -/
def interruptedRun (file : List Int) (ds fuel N : Nat) :
    Except RunError (List Int) :=
  match pipelineRecords file with
  | .error e => .error e
  | .ok recs =>
    match processRecords fuel ds (initState []) (recs.take N) with
    | .error e => .error e
    | .ok st => .ok st.cacheEntries

/-- The specification-level reading of the tracked minimum: the minimum
over the positive raw results (folded from `i32::MAX`). -/
def minPositive (divs : List Int) : Int :=
  (divs.filter (fun d => decide (0 < d))).foldl min 2147483647

/-- The specification-level reading of the tracked maximum: the maximum
over the positive raw results (folded from `-1`). -/
def maxPositive (divs : List Int) : Int :=
  (divs.filter (fun d => decide (0 < d))).foldl max (-1)

/-- The global minimum exactly as the claim words it: the minimum over all
non-sentinel raw results (only sentinels excluded). -/
def specGlobalMin (divs : List Int) : Int :=
  (divs.filter (fun d => decide (d ≠ 0))).foldl min 2147483647

/-- The encoder output the claim describes: sentinel to `0`, every
non-sentinel `v` to `v - specGlobalMin + 1` (as a 16-bit value). -/
def claimEncode (divs : List Int) : List Nat :=
  divs.map (fun d =>
    if d = 0 then 0 else (Int.emod (d - specGlobalMin divs + 1) 65536).toNat)

/-! ### Properties -/

theorem divPasses_eq_some_true {hashes : List Int} {d : Int}
    (h : divPasses hashes d = some true) : ∀ x ∈ hashes, Int.tmod x d ≠ 0 := by
  induction hashes with
  | nil => intro x hx; cases hx
  | cons a rest ih =>
    intro x hx
    rw [divPasses] at h
    by_cases hd : d = 0
    · simp [hd] at h
    · simp only [hd, if_false] at h
      by_cases ha : Int.tmod a d = 0
      · simp [ha] at h
      · simp only [ha, if_false] at h
        rcases List.mem_cons.mp hx with rfl | hx'
        · exact ha
        · exact ih h x hx'

theorem divPasses_ne_none {hashes : List Int} {d : Int} (hd : d ≠ 0) :
    divPasses hashes d ≠ none := by
  induction hashes with
  | nil => simp [divPasses]
  | cons a rest ih =>
    rw [divPasses]
    simp only [hd, if_false]
    by_cases ha : Int.tmod a d = 0
    · simp [ha]
    · simpa [ha] using ih

theorem divPasses_zero {hashes : List Int} (h : hashes ≠ []) :
    divPasses hashes 0 = none := by
  cases hashes with
  | nil => exact absurd rfl h
  | cons a rest => simp [divPasses]

theorem searchDiv_ok {hashes : List Int} :
    ∀ {d : Int} {fuel : Nat} {r : Int}, searchDiv hashes d fuel = .ok r →
      d ≤ r ∧ divPasses hashes r = some true := by
  intro d fuel
  induction fuel generalizing d with
  | zero => intro r h; simp [searchDiv] at h
  | succ n ih =>
    intro r h
    rw [searchDiv] at h
    cases hp : divPasses hashes d with
    | none => rw [hp] at h; cases h
    | some b =>
      cases b with
      | true =>
        rw [hp] at h
        cases h
        exact ⟨le_refl _, hp⟩
      | false =>
        rw [hp] at h
        have := ih h
        exact ⟨le_trans (by omega) this.1, this.2⟩

theorem searchDiv_ne_divByZero {hashes : List Int} :
    ∀ {d : Int} {fuel : Nat}, 1 ≤ d →
      searchDiv hashes d fuel ≠ .error .divByZero := by
  intro d fuel
  induction fuel generalizing d with
  | zero => intro hd; simp [searchDiv]
  | succ n ih =>
    intro hd
    rw [searchDiv]
    cases hp : divPasses hashes d with
    | none => exact absurd hp (divPasses_ne_none (by omega))
    | some b =>
      cases b with
      | true => simp
      | false => exact ih (by omega)

theorem contains_iff_mem {l : List Int} {a : Int} :
    l.contains a = true ↔ a ∈ l :=
  List.elem_iff

theorem getLastD_mem {l : List Nat} (h : l ≠ []) (d : Nat) :
    l.getLastD d ∈ l := by
  induction l generalizing d with
  | nil => exact absurd rfl h
  | cons x xs ih =>
    cases xs with
    | nil => simp [List.getLastD]
    | cons y ys =>
      have : (x :: y :: ys).getLastD d = (y :: ys).getLastD x := by
        simp [List.getLastD]
      rw [this]
      exact List.mem_cons_of_mem x (ih (by simp) x)

theorem gminStep_zero (m : Int) : gminStep m 0 = m := by
  simp [gminStep]

theorem gmaxStep_zero (m : Int) : gmaxStep m 0 = m := by
  simp [gmaxStep]

theorem gminStep_pos {d : Int} (h : 0 < d) (m : Int) :
    gminStep m d = if d < m then d else m := by
  simp [gminStep, h]

theorem gmaxStep_pos {d : Int} (h : 0 < d) (m : Int) :
    gmaxStep m d = if m < d then d else m := by
  simp [gmaxStep, h]

theorem gminFold_nil (m : Int) : gminFold m [] = m := rfl

theorem gmaxFold_nil (m : Int) : gmaxFold m [] = m := rfl

theorem gminFold_cons (m d : Int) (l : List Int) :
    gminFold m (d :: l) = gminFold (gminStep m d) l := rfl

theorem gmaxFold_cons (m d : Int) (l : List Int) :
    gmaxFold m (d :: l) = gmaxFold (gmaxStep m d) l := rfl

theorem drop_pos_cons {E : List Int} {p : Nat} (h : p < E.length) :
    E.drop p = E.getD p 0 :: E.drop (p + 1) := by
  rw [List.drop_eq_getElem_cons h]
  congr 1
  simp [List.getElem?_eq_getElem h]

/-- Constructive characterization of `processRecords`: starting from a state
whose cache cursor is within the file, the run first replays the pending
cache entries and then computes the remaining records fresh; the final
state is given in closed form.  Requires `div_start ≥ 1` (the program's
documented domain), which makes every fresh non-sentinel result positive so
that the unguarded min/max updates of the fresh path agree with the guarded
ones. -/
theorem processRecords_run (fuel ds : Nat) (hds : 1 ≤ ds) :
    ∀ (recs : List (List Int)) (st : RunState) (fresh : List Int),
      st.cachePos ≤ st.cacheEntries.length →
      mapExcept (freshResult fuel ds)
        (recs.drop (st.cacheEntries.length - st.cachePos)) = .ok fresh →
      processRecords fuel ds st recs = .ok
        ⟨st.divs_found ++ ((st.cacheEntries.drop st.cachePos).take recs.length ++ fresh),
         gminFold st.min_div ((st.cacheEntries.drop st.cachePos).take recs.length ++ fresh),
         gmaxFold st.max_div ((st.cacheEntries.drop st.cachePos).take recs.length ++ fresh),
         st.cacheEntries ++ fresh,
         st.cachePos + recs.length⟩ := by
  intro recs
  induction recs with
  | nil =>
    intro st fresh hpos hmap
    simp only [List.drop_nil, mapExcept] at hmap
    cases hmap
    simp [processRecords, gminFold_nil, gmaxFold_nil]
  | cons hs rest ih =>
    intro st fresh hpos hmap
    by_cases hlt : st.cachePos < st.cacheEntries.length
    · -- replay one pending cache entry
      have hdrop := drop_pos_cons hlt
      have hsub : st.cacheEntries.length - st.cachePos
          = (st.cacheEntries.length - (st.cachePos + 1)) + 1 := by omega
      rw [hsub, List.drop_succ_cons] at hmap
      have hstep := ih
        { st with
          divs_found := st.divs_found ++ [st.cacheEntries.getD st.cachePos 0],
          min_div := gminStep st.min_div (st.cacheEntries.getD st.cachePos 0),
          max_div := gmaxStep st.max_div (st.cacheEntries.getD st.cachePos 0),
          cachePos := st.cachePos + 1 }
        fresh (by simpa using hlt) (by simpa using hmap)
      simp only [processRecords, processRecord, if_pos hlt]
      rw [hstep]
      rw [hdrop]
      simp [gminFold_cons, gmaxFold_cons, List.take_succ_cons]
      omega
    · -- cache exhausted: the record is computed fresh
      have hp : st.cachePos = st.cacheEntries.length := by omega
      have hz : st.cacheEntries.length - st.cachePos = 0 := by omega
      rw [hz, List.drop_zero] at hmap
      have hdropE : st.cacheEntries.drop st.cachePos = [] := by
        rw [hp]; exact List.drop_length _
      rw [mapExcept] at hmap
      cases hfr : freshResult fuel ds hs with
      | error e => rw [hfr] at hmap; cases hmap
      | ok x =>
        rw [hfr] at hmap
        cases hmr : mapExcept (freshResult fuel ds) rest with
        | error e => rw [hmr] at hmap; cases hmap
        | ok xs =>
          rw [hmr] at hmap
          cases hmap
          by_cases hzero : hs.contains 0
          · -- zero-hash fast path: sentinel 0, min/max untouched
            have hx0 : x = 0 := by
              rw [freshResult, if_pos hzero] at hfr
              cases hfr; rfl
            subst hx0
            have hstep := ih
              { st with
                divs_found := st.divs_found ++ [(0 : Int)],
                cacheEntries := st.cacheEntries ++ [(0 : Int)],
                cachePos := st.cachePos + 1 }
              xs (by simp; omega)
              (by
                rw [(show (st.cacheEntries ++ [(0 : Int)]).length - (st.cachePos + 1) = 0 by
                  simp; omega), List.drop_zero]
                exact hmr)
            simp only [processRecords, processRecord, if_neg hlt, if_pos hzero]
            rw [hstep]
            have hdropE2 : (st.cacheEntries ++ [(0 : Int)]).drop (st.cachePos + 1) = [] := by
              apply List.drop_of_length_le
              simp; omega
            simp [hdropE, hdropE2, gminFold_cons, gmaxFold_cons, gminStep_zero, gmaxStep_zero]
            omega
          · -- fresh search
            have hsd : searchDiv hs (ds : Int) fuel = .ok x := by
              rw [freshResult, if_neg hzero] at hfr
              cases hsd' : searchDiv hs (ds : Int) fuel with
              | error e =>
                cases e <;> rw [hsd'] at hfr <;> cases hfr
              | ok r => rw [hsd'] at hfr; cases hfr; rfl
            have hxpos : 0 < x := by
              have := (searchDiv_ok hsd).1
              have hds' : (1 : Int) ≤ (ds : Int) := by exact_mod_cast hds
              omega
            have hstep := ih
              { st with
                divs_found := st.divs_found ++ [x],
                min_div := if x < st.min_div then x else st.min_div,
                max_div := if st.max_div < x then x else st.max_div,
                cacheEntries := st.cacheEntries ++ [x],
                cachePos := st.cachePos + 1 }
              xs (by simp; omega)
              (by
                rw [(show (st.cacheEntries ++ [x]).length - (st.cachePos + 1) = 0 by
                  simp; omega), List.drop_zero]
                exact hmr)
            simp only [processRecords, processRecord, if_neg hlt, if_neg hzero, hsd]
            rw [hstep]
            have hdropE2 : (st.cacheEntries ++ [x]).drop (st.cachePos + 1) = [] := by
              apply List.drop_of_length_le
              simp; omega
            simp [hdropE, hdropE2, gminFold_cons, gmaxFold_cons,
              gminStep_pos hxpos, gmaxStep_pos hxpos]
            omega

/-- Completeness direction: a successful run means every record past the
replayed cache prefix produced a fresh result. -/
theorem processRecords_ok_fresh (fuel ds : Nat) :
    ∀ (recs : List (List Int)) (st st' : RunState),
      st.cachePos ≤ st.cacheEntries.length →
      processRecords fuel ds st recs = .ok st' →
      ∃ fresh, mapExcept (freshResult fuel ds)
        (recs.drop (st.cacheEntries.length - st.cachePos)) = .ok fresh := by
  intro recs
  induction recs with
  | nil =>
    intro st st' hpos hrun
    exact ⟨[], by simp [mapExcept]⟩
  | cons hs rest ih =>
    intro st st' hpos hrun
    rw [processRecords] at hrun
    cases hpr : processRecord fuel ds st hs with
    | error e => rw [hpr] at hrun; cases hrun
    | ok st2 =>
      rw [hpr] at hrun
      by_cases hlt : st.cachePos < st.cacheEntries.length
      · rw [processRecord, if_pos hlt] at hpr
        cases hpr
        have hrec := ih _ _ (by simpa using hlt) hrun
        have hsub : st.cacheEntries.length - st.cachePos
            = (st.cacheEntries.length - (st.cachePos + 1)) + 1 := by omega
        rw [hsub, List.drop_succ_cons]
        simpa using hrec
      · have hp0 : st.cacheEntries.length - st.cachePos = 0 := by omega
        rw [hp0, List.drop_zero]
        by_cases hzero : hs.contains 0
        · rw [processRecord, if_neg hlt, if_pos hzero] at hpr
          cases hpr
          obtain ⟨fresh, hfresh⟩ := ih _ _ (by simp; omega) hrun
          rw [(show (st.cacheEntries ++ [(0 : Int)]).length - (st.cachePos + 1) = 0 by
            simp; omega), List.drop_zero] at hfresh
          refine ⟨0 :: fresh, ?_⟩
          rw [mapExcept, freshResult, if_pos hzero, hfresh]
        · rw [processRecord, if_neg hlt, if_neg hzero] at hpr
          cases hsd : searchDiv hs (ds : Int) fuel with
          | error e =>
            cases e <;> rw [hsd] at hpr <;> cases hpr
          | ok x =>
            rw [hsd] at hpr
            cases hpr
            obtain ⟨fresh, hfresh⟩ := ih _ _ (by simp; omega) hrun
            rw [(show (st.cacheEntries ++ [x]).length - (st.cachePos + 1) = 0 by
              simp; omega), List.drop_zero] at hfresh
            refine ⟨x :: fresh, ?_⟩
            rw [mapExcept, freshResult, if_neg hzero, hsd, hfresh]

/-- Combined characterization: a successful run from an initial cache file
`c0` replays `c0` and computes the remaining records fresh, and the final
state is determined in closed form. -/
theorem processRecords_char (fuel ds : Nat) (hds : 1 ≤ ds)
    (recs : List (List Int)) (c0 : List Int) (st' : RunState)
    (hrun : processRecords fuel ds (initState c0) recs = .ok st') :
    ∃ fresh, mapExcept (freshResult fuel ds) (recs.drop c0.length) = .ok fresh ∧
      st' = ⟨c0.take recs.length ++ fresh,
             gminFold 2147483647 (c0.take recs.length ++ fresh),
             gmaxFold (-1) (c0.take recs.length ++ fresh),
             c0 ++ fresh,
             recs.length⟩ := by
  obtain ⟨fresh, hfresh⟩ := processRecords_ok_fresh fuel ds recs (initState c0) st'
    (by simp [initState]) hrun
  have hrun2 := processRecords_run fuel ds hds recs (initState c0) fresh
    (by simp [initState]) (by simpa [initState] using hfresh)
  rw [hrun] at hrun2
  refine ⟨fresh, by simpa [initState] using hfresh, ?_⟩
  have := Except.ok.inj hrun2
  simpa [initState] using this

theorem mapExcept_ok_length {f : List Int → Except RunError Int} :
    ∀ {l : List (List Int)} {r : List Int}, mapExcept f l = .ok r →
      r.length = l.length := by
  intro l
  induction l with
  | nil => intro r h; cases h; rfl
  | cons x xs ih =>
    intro r h
    rw [mapExcept] at h
    cases hfx : f x with
    | error e => rw [hfx] at h; cases h
    | ok v =>
      rw [hfx] at h
      cases hmx : mapExcept f xs with
      | error e => rw [hmx] at h; cases h
      | ok vs =>
        rw [hmx] at h
        cases h
        simp [ih hmx]

theorem mapExcept_ok_take {f : List Int → Except RunError Int} :
    ∀ {l : List (List Int)} {r : List Int}, mapExcept f l = .ok r →
      ∀ n, mapExcept f (l.take n) = .ok (r.take n) := by
  intro l
  induction l with
  | nil => intro r h n; cases h; simp [mapExcept]
  | cons x xs ih =>
    intro r h n
    rw [mapExcept] at h
    cases hfx : f x with
    | error e => rw [hfx] at h; cases h
    | ok v =>
      rw [hfx] at h
      cases hmx : mapExcept f xs with
      | error e => rw [hmx] at h; cases h
      | ok vs =>
        rw [hmx] at h
        cases h
        cases n with
        | zero => simp [mapExcept]
        | succ k =>
          simp only [List.take_succ_cons]
          rw [mapExcept, hfx, ih hmx k]

theorem mapExcept_ok_drop {f : List Int → Except RunError Int} :
    ∀ {l : List (List Int)} {r : List Int}, mapExcept f l = .ok r →
      ∀ n, mapExcept f (l.drop n) = .ok (r.drop n) := by
  intro l
  induction l with
  | nil => intro r h n; cases h; simp [mapExcept]
  | cons x xs ih =>
    intro r h n
    rw [mapExcept] at h
    cases hfx : f x with
    | error e => rw [hfx] at h; cases h
    | ok v =>
      rw [hfx] at h
      cases hmx : mapExcept f xs with
      | error e => rw [hmx] at h; cases h
      | ok vs =>
        rw [hmx] at h
        cases h
        cases n with
        | zero => rw [List.drop_zero, List.drop_zero, mapExcept, hfx, hmx]
        | succ k => simpa using ih hmx k

theorem mapExcept_replicate {f : List Int → Except RunError Int}
    {a : List Int} {b : Int} (h : f a = .ok b) :
    ∀ n, mapExcept f (List.replicate n a) = .ok (List.replicate n b) := by
  intro n
  induction n with
  | zero => simp [mapExcept]
  | succ k ih =>
    rw [List.replicate_succ, List.replicate_succ, mapExcept, h, ih]

theorem processRecords_append (fuel ds : Nat) :
    ∀ (a b : List (List Int)) (st : RunState),
      processRecords fuel ds st (a ++ b) =
        match processRecords fuel ds st a with
        | .error e => .error e
        | .ok st' => processRecords fuel ds st' b := by
  intro a
  induction a with
  | nil => intro b st; rfl
  | cons hs rest ih =>
    intro b st
    rw [List.cons_append, processRecords, processRecords]
    cases hpr : processRecord fuel ds st hs with
    | error e => rfl
    | ok st2 => exact ih b st2

theorem windowsRecords_nil (file : List Int) (wc : Nat) :
    windowsRecords file wc [] = .ok [] := rfl

theorem windowsRecords_cons (file : List Int) (wc ci : Nat) (rest : List Nat) :
    windowsRecords file wc (ci :: rest) =
      match readWindow file wc (ci * 8000) with
      | .error e => .error e
      | .ok sample =>
        match windowsRecords file wc rest with
        | .error e => .error e
        | .ok rs => .ok (windowRecords sample wc ++ rs) := rfl

theorem runWindows_nil (file : List Int) (wc ds fuel : Nat) (st : RunState) :
    runWindows file wc ds fuel [] st = .ok st := rfl

theorem runWindows_cons (file : List Int) (wc ds fuel ci : Nat)
    (rest : List Nat) (st : RunState) :
    runWindows file wc ds fuel (ci :: rest) st =
      match readWindow file wc (ci * 8000) with
      | .error e => .error e
      | .ok sample =>
        match processRecords fuel ds st (windowRecords sample wc) with
        | .error e => .error e
        | .ok st' => runWindows file wc ds fuel rest st' := rfl

set_option maxRecDepth 40000 in
theorem runWindows_eq (file : List Int) (wc ds fuel : Nat) :
    ∀ (cis : List Nat) (st : RunState) (recs : List (List Int)),
      windowsRecords file wc cis = .ok recs →
      runWindows file wc ds fuel cis st = processRecords fuel ds st recs := by
  intro cis
  induction cis with
  | nil =>
    intro st recs h
    cases h
    rfl
  | cons ci rest ih =>
    intro st recs h
    cases hrw : readWindow file wc (ci * 8000) with
    | error e => simp [windowsRecords_cons, hrw] at h
    | ok sample =>
      cases hws : windowsRecords file wc rest with
      | error e => simp [windowsRecords_cons, hrw, hws] at h
      | ok rs =>
        simp only [windowsRecords_cons, hrw, hws] at h
        cases h
        simp only [runWindows_cons, hrw]
        rw [processRecords_append]
        cases hpr : processRecords fuel ds st (windowRecords sample wc) with
        | error e => rfl
        | ok st2 => exact ih st2 rs hws

set_option maxRecDepth 40000 in
theorem runWindows_ok_windows (file : List Int) (wc ds fuel : Nat) :
    ∀ (cis : List Nat) (st st' : RunState),
      runWindows file wc ds fuel cis st = .ok st' →
      ∃ recs, windowsRecords file wc cis = .ok recs := by
  intro cis
  induction cis with
  | nil => intro st st' h; exact ⟨[], rfl⟩
  | cons ci rest ih =>
    intro st st' h
    cases hrw : readWindow file wc (ci * 8000) with
    | error e => simp [runWindows_cons, hrw] at h
    | ok sample =>
      cases hpr : processRecords fuel ds st (windowRecords sample wc) with
      | error e => simp [runWindows_cons, hrw, hpr] at h
      | ok st2 =>
        simp only [runWindows_cons, hrw, hpr] at h
        obtain ⟨rs, hrs⟩ := ih st2 st' h
        exact ⟨windowRecords sample wc ++ rs, by simp only [windowsRecords_cons, hrw, hrs]⟩

theorem readWindow_ok :
    ∀ (wc : Nat) (file : List Int) (offset : Nat),
      offset + 8000 ≤ 45000 → 45000 * wc ≤ file.length →
      ∃ sample, readWindow file wc offset = .ok sample ∧
        sample.length = 8000 * wc ∧
        ∀ i j, i < wc → j < 8000 →
          sample[8000 * i + j]? = file[45000 * i + (offset + j)]? := by
  intro wc
  induction wc with
  | zero =>
    intro file offset _ _
    refine ⟨[], rfl, rfl, ?_⟩
    intro i j hi
    omega
  | succ wc ih =>
    intro file offset hoff hlen
    have h45 : 45000 ≤ file.length := by
      have : 45000 * wc + 45000 ≤ file.length := by
        have := hlen
        omega
      omega
    obtain ⟨rest, hrest, hrlen, hrget⟩ := ih (file.drop 45000) offset
      (by omega) (by simp [List.length_drop]; omega)
    have hslice : (((file.take 45000).drop offset).take 8000).length = 8000 := by
      simp [List.length_take, List.length_drop]
      omega
    refine ⟨((file.take 45000).drop offset).take 8000 ++ rest, ?_, ?_, ?_⟩
    · rw [readWindow, if_pos h45, if_pos hoff, hrest]
    · simp only [List.length_append, hslice, hrlen]
      omega
    · intro i j hi hj
      cases i with
      | zero =>
        rw [List.getElem?_append_left (by rw [hslice]; omega)]
        rw [List.drop_take, List.take_take]
        rw [List.getElem?_take_of_lt (by omega), List.getElem?_drop]
        congr 1
        omega
      | succ k =>
        rw [List.getElem?_append_right (by rw [hslice]; omega)]
        rw [hslice]
        rw [(show 8000 * (k + 1) + j - 8000 = 8000 * k + j by omega)]
        rw [hrget k j (by omega) hj, List.getElem?_drop]
        congr 1
        omega

theorem readWindow_short :
    ∀ (wc : Nat) (file : List Int) (offset : Nat),
      offset + 8000 ≤ 45000 → file.length < 45000 * wc →
      readWindow file wc offset = .error (.ioErr .inDbRead) := by
  intro wc
  induction wc with
  | zero =>
    intro file offset _ h
    exact absurd h (by omega)
  | succ wc ih =>
    intro file offset hoff h
    by_cases h45 : 45000 ≤ file.length
    · rw [readWindow, if_pos h45, if_pos hoff,
        ih (file.drop 45000) offset hoff (by simp [List.length_drop]; omega)]
    · rw [readWindow, if_neg h45]

theorem gminFold_eq_filter :
    ∀ (l : List Int) (m : Int),
      gminFold m l = (l.filter (fun d => decide (0 < d))).foldl min m := by
  intro l
  induction l with
  | nil => intro m; rfl
  | cons d rest ih =>
    intro m
    rw [gminFold_cons]
    by_cases hd : 0 < d
    · rw [List.filter_cons_of_pos (by simpa using hd), List.foldl_cons, ih]
      congr 1
      rw [gminStep_pos hd]
      by_cases h2 : d < m <;> simp [min_def] <;> omega
    · rw [List.filter_cons_of_neg (by simpa using hd), ih]
      congr 1
      simp [gminStep, hd]

theorem gmaxFold_eq_filter :
    ∀ (l : List Int) (m : Int),
      gmaxFold m l = (l.filter (fun d => decide (0 < d))).foldl max m := by
  intro l
  induction l with
  | nil => intro m; rfl
  | cons d rest ih =>
    intro m
    rw [gmaxFold_cons]
    by_cases hd : 0 < d
    · rw [List.filter_cons_of_pos (by simpa using hd), List.foldl_cons, ih]
      congr 1
      rw [gmaxStep_pos hd]
      by_cases h2 : m < d <;> simp [max_def] <;> omega
    · rw [List.filter_cons_of_neg (by simpa using hd), ih]
      congr 1
      simp [gmaxStep, hd]

theorem foldl_min_eq_self {d : Int} :
    ∀ {l : List Int}, (∀ x ∈ l, d ≤ x) → l.foldl min d = d := by
  intro l
  induction l with
  | nil => intro _; rfl
  | cons x rest ih =>
    intro hall
    rw [List.foldl_cons, min_eq_left (hall x (by simp))]
    exact ih (fun y hy => hall y (by simp [hy]))

theorem foldl_min_eq_min {d : Int} :
    ∀ {l : List Int} {m : Int}, d ∈ l → (∀ x ∈ l, d ≤ x) → d ≤ m →
      l.foldl min m = d := by
  intro l
  induction l with
  | nil => intro m h; cases h
  | cons x rest ih =>
    intro m hmem hall hm
    rw [List.foldl_cons]
    rcases List.mem_cons.mp hmem with rfl | hmem'
    · rw [min_eq_right hm]
      exact foldl_min_eq_self (fun y hy => hall y (by simp [hy]))
    · exact ih hmem' (fun y hy => hall y (by simp [hy]))
        (le_min hm (hall x (by simp)))

/-- Specialization of `processRecords_run` to a run starting from an
initial cache `c0`, with the state arithmetic pre-simplified. -/
theorem processRecords_run_init (fuel ds : Nat) (hds : 1 ≤ ds)
    (recs : List (List Int)) (c0 fresh : List Int)
    (hmap : mapExcept (freshResult fuel ds) (recs.drop c0.length) = .ok fresh) :
    processRecords fuel ds (initState c0) recs = .ok
      ⟨c0.take recs.length ++ fresh,
       gminFold 2147483647 (c0.take recs.length ++ fresh),
       gmaxFold (-1) (c0.take recs.length ++ fresh),
       c0 ++ fresh,
       recs.length⟩ := by
  have h := processRecords_run fuel ds hds recs (initState c0) fresh
    (by rw [(show (initState c0).cachePos = 0 from rfl)]; exact Nat.zero_le _)
    (by rw [(show (initState c0).cacheEntries = c0 from rfl),
      (show (initState c0).cachePos = 0 from rfl), Nat.sub_zero]; exact hmap)
  rw [h]
  rw [(show (initState c0).cacheEntries = c0 from rfl),
    (show (initState c0).cachePos = 0 from rfl),
    (show (initState c0).divs_found = [] from rfl),
    (show (initState c0).min_div = 2147483647 from rfl),
    (show (initState c0).max_div = -1 from rfl),
    List.drop_zero, List.nil_append, Nat.zero_add]

/-- Specialization to a run from an empty cache: every record is computed
fresh, and the cache ends up holding exactly the produced results. -/
theorem processRecords_run_empty (fuel ds : Nat) (hds : 1 ≤ ds)
    (recs : List (List Int)) (fresh : List Int) (n : Nat) (hn : recs.length = n)
    (hmap : mapExcept (freshResult fuel ds) recs = .ok fresh) :
    processRecords fuel ds (initState []) recs = .ok
      ⟨fresh, gminFold 2147483647 fresh, gmaxFold (-1) fresh, fresh, n⟩ := by
  have h := processRecords_run_init fuel ds hds recs [] fresh
    (by rw [(show List.length ([] : List Int) = 0 from rfl), List.drop_zero]
        exact hmap)
  rw [h, List.take_nil, List.nil_append, hn]

theorem readWindow_replicate (offset : Nat) (hoff : offset + 8000 ≤ 45000) :
    readWindow (List.replicate 45000 (7 : Int)) 1 offset =
      .ok (List.replicate 8000 7) := by
  obtain ⟨sample, hs, hlen, hget⟩ := readWindow_ok 1 (List.replicate 45000 (7 : Int))
    offset hoff (by rw [List.length_replicate])
  have hsr : sample = List.replicate 8000 7 := by
    apply List.ext_getElem?
    intro i
    by_cases hi : i < 8000
    · have h0 := hget 0 i (by norm_num) hi
      rw [(show 8000 * 0 + i = i by omega),
        (show 45000 * 0 + (offset + i) = offset + i by omega)] at h0
      rw [h0, List.getElem?_replicate, List.getElem?_replicate,
        if_pos (by omega : offset + i < 45000), if_pos hi]
    · rw [List.getElem?_eq_none (by omega : sample.length ≤ i),
        List.getElem?_eq_none (by rw [List.length_replicate]; omega)]
  rw [hsr] at hs
  exact hs

theorem recordColumn_replicate {chunk : Nat} (h : chunk < 8000) :
    recordColumn (List.replicate 8000 (7 : Int)) 1 chunk = [7] := by
  rw [recordColumn, (show List.range 1 = [0] from rfl), List.map_singleton,
    (show 0 * 8000 + chunk = chunk by omega)]
  rw [List.getD_eq_getElem?_getD, List.getElem?_replicate, if_pos h]
  rfl

theorem windowRecords_replicate :
    windowRecords (List.replicate 8000 (7 : Int)) 1
      = List.replicate 8000 [(7 : Int)] := by
  rw [windowRecords]
  refine List.eq_replicate_iff.mpr ⟨by rw [List.length_map, List.length_range], ?_⟩
  intro b hb
  obtain ⟨c, hc, rfl⟩ := List.mem_map.mp hb
  exact recordColumn_replicate (List.mem_range.mp hc)

theorem windowsRecords_cons_ok {file : List Int} {wc ci : Nat} {rest : List Nat}
    {sample : List Int} {rs : List (List Int)}
    (h1 : readWindow file wc (ci * 8000) = .ok sample)
    (h2 : windowsRecords file wc rest = .ok rs) :
    windowsRecords file wc (ci :: rest) = .ok (windowRecords sample wc ++ rs) := by
  rw [windowsRecords_cons, h1, h2]

theorem windowsRecords_replicate :
    windowsRecords (List.replicate 45000 (7 : Int)) 1 [0, 1, 2, 3]
      = .ok (List.replicate 32000 [(7 : Int)]) := by
  have w1 := windowsRecords_cons_ok (readWindow_replicate (3 * 8000) (by norm_num))
    (windowsRecords_nil (List.replicate 45000 (7 : Int)) 1)
  have w2 := windowsRecords_cons_ok (readWindow_replicate (2 * 8000) (by norm_num)) w1
  have w3 := windowsRecords_cons_ok (readWindow_replicate (1 * 8000) (by norm_num)) w2
  have w4 := windowsRecords_cons_ok (readWindow_replicate (0 * 8000) (by norm_num)) w3
  rw [windowRecords_replicate, List.append_nil] at w4
  rw [w4]
  rw [(show (32000 : Nat) = 8000 + (8000 + (8000 + 8000)) by norm_num),
    List.replicate_add, List.replicate_add, List.replicate_add]

theorem pipelineRecords_replicate :
    pipelineRecords (List.replicate 45000 (7 : Int))
      = .ok (List.replicate 32000 [(7 : Int)]) := by
  rw [pipelineRecords,
    (show (List.replicate 45000 (7 : Int)).length / 45000 = 1 by
      rw [List.length_replicate])]
  exact windowsRecords_replicate

theorem freshResult_seven : freshResult 2 1 [(7 : Int)] = .ok 2 := rfl

theorem gminFold_two : ∀ n, gminFold 2 (List.replicate n (2 : Int)) = 2 := by
  intro n
  induction n with
  | zero => rfl
  | succ k ih =>
    rw [List.replicate_succ, gminFold_cons, (show gminStep 2 2 = 2 by decide)]
    exact ih

theorem gmaxFold_two : ∀ n, gmaxFold 2 (List.replicate n (2 : Int)) = 2 := by
  intro n
  induction n with
  | zero => rfl
  | succ k ih =>
    rw [List.replicate_succ, gmaxFold_cons, (show gmaxStep 2 2 = 2 by decide)]
    exact ih

theorem gminFold_init_two (n : Nat) (hn : n ≠ 0) :
    gminFold 2147483647 (List.replicate n (2 : Int)) = 2 := by
  obtain ⟨k, rfl⟩ := Nat.exists_eq_succ_of_ne_zero hn
  rw [List.replicate_succ, gminFold_cons,
    (show gminStep 2147483647 2 = 2 by decide)]
  exact gminFold_two k

theorem gmaxFold_init_two (n : Nat) (hn : n ≠ 0) :
    gmaxFold (-1) (List.replicate n (2 : Int)) = 2 := by
  obtain ⟨k, rfl⟩ := Nat.exists_eq_succ_of_ne_zero hn
  rw [List.replicate_succ, gmaxFold_cons,
    (show gmaxStep (-1) 2 = 2 by decide)]
  exact gmaxFold_two k

theorem encode_replicate {m v : Int} (h : encodeValue m v ≤ 65535) :
    ∀ n, encode m (List.replicate n v)
      = .ok (List.replicate n (Int.emod (encodeValue m v) 65536).toNat) := by
  intro n
  induction n with
  | zero => rfl
  | succ k ih =>
    rw [List.replicate_succ, List.replicate_succ, encode, if_pos h, ih]

theorem processRecords_rep7 (n : Nat) (hn : n ≠ 0) :
    processRecords 2 1 (initState []) (List.replicate n [(7 : Int)])
      = .ok ⟨List.replicate n 2, 2, 2, List.replicate n 2, n⟩ := by
  have h := processRecords_run_empty 2 1 (le_refl 1)
    (List.replicate n [(7 : Int)]) (List.replicate n 2) n
    (List.length_replicate n [(7 : Int)])
    (mapExcept_replicate freshResult_seven n)
  rw [h, gminFold_init_two n hn, gmaxFold_init_two n hn]

theorem fullRun_replicate7 :
    fullRun (List.replicate 45000 (7 : Int)) 1 2 []
      = .ok (List.replicate 32000 1) := by
  have hrun : runWindows (List.replicate 45000 (7 : Int)) 1 1 2 [0, 1, 2, 3]
      (initState []) = .ok ⟨List.replicate 32000 2, 2, 2,
        List.replicate 32000 2, 32000⟩ := by
    rw [runWindows_eq _ _ _ _ _ _ _ windowsRecords_replicate]
    exact processRecords_rep7 32000 (by norm_num)
  rw [fullRun,
    (show (List.replicate 45000 (7 : Int)).length / 45000 = 1 by
      rw [List.length_replicate]), hrun]
  show encode (2 : Int) (List.replicate 32000 2) = .ok (List.replicate 32000 1)
  rw [encode_replicate (show encodeValue 2 2 ≤ 65535 by decide) 32000,
    (show (Int.emod (encodeValue 2 2) 65536).toNat = 1 by decide)]

theorem interruptedRun_replicate7 :
    interruptedRun (List.replicate 45000 (7 : Int)) 1 2 8000
      = .ok (List.replicate 8000 2) := by
  have htake : (List.replicate 32000 [(7 : Int)]).take 8000
      = List.replicate 8000 [(7 : Int)] := by
    rw [List.take_replicate, (show min 8000 32000 = 8000 by omega)]
  have step1 : interruptedRun (List.replicate 45000 (7 : Int)) 1 2 8000 =
      match processRecords 2 1 (initState [])
        ((List.replicate 32000 [(7 : Int)]).take 8000) with
      | Except.error e => Except.error e
      | Except.ok st => Except.ok st.cacheEntries := by
    rw [interruptedRun, pipelineRecords_replicate]
  rw [htake, processRecords_rep7 8000 (by norm_num)] at step1
  exact step1

theorem processRecords_cons_ok {fuel ds : Nat} {st st' : RunState}
    {hs : List Int} {rest : List (List Int)}
    (h1 : processRecord fuel ds st hs = .ok st') :
    processRecords fuel ds st (hs :: rest) = processRecords fuel ds st' rest := by
  rw [processRecords, h1]

theorem encode_overflow {m : Int} :
    ∀ {divs : List Int}, (∃ d ∈ divs, 65535 < encodeValue m d) →
      encode m divs = .error (.fatal .assertOverflow) := by
  intro divs
  induction divs with
  | nil =>
    intro h
    obtain ⟨d, hd, _⟩ := h
    cases hd
  | cons x rest ih =>
    intro h
    by_cases hx : encodeValue m x ≤ 65535
    · have htail : ∃ d ∈ rest, 65535 < encodeValue m d := by
        obtain ⟨d, hd, hgt⟩ := h
        rcases List.mem_cons.mp hd with rfl | hd'
        · exact absurd hgt (by omega)
        · exact ⟨d, hd', hgt⟩
      rw [encode, if_pos hx, ih htail]
    · rw [encode, if_neg hx]

theorem encode_ok_map {m : Int} :
    ∀ {l : List Int} {out : List Nat}, encode m l = .ok out →
      out = l.map (fun d => (Int.emod (encodeValue m d) 65536).toNat) := by
  intro l
  induction l with
  | nil =>
    intro out h
    cases h
    rfl
  | cons x rest ih =>
    intro out h
    by_cases hx : encodeValue m x ≤ 65535
    · rw [encode, if_pos hx] at h
      cases henc : encode m rest with
      | error e => rw [henc] at h; cases h
      | ok out' =>
        rw [henc] at h
        cases h
        rw [List.map_cons, ih henc]
    · rw [encode, if_neg hx] at h
      cases h

/-- Claim C1: for every record with no zero hash value and `div_start ≥ 1`,
any result the multithreaded divisor search can produce — the last
candidate stored by a valid worker-pool episode — is an integer
`r ≥ div_start` such that no hash value of the record is divisible by `r`
(`h mod r ≠ 0` for every `h`); `r` need not be the smallest such integer,
which is why only soundness of an arbitrary valid episode is claimed. -/
theorem c1 (hashes : List Int) (ds : Nat) (hds : 1 ≤ ds)
    (hz : (0 : Int) ∉ hashes) (tr : EngineTrace)
    (hv : TraceValid hashes ds tr) :
    (ds : Int) ≤ traceResult ds tr ∧
      ∀ h ∈ hashes, Int.tmod h (traceResult ds tr) ≠ 0 := by
  obtain ⟨hne, hall⟩ := hv
  obtain ⟨-, hpass⟩ := hall _ (getLastD_mem hne 0)
  refine ⟨?_, ?_⟩
  · rw [traceResult]
    have hnn : (0 : Int) ≤ ((tr.storeEvents.getLastD 0 : Nat) : Int) :=
      Int.natCast_nonneg _
    omega
  · intro h hh
    exact divPasses_eq_some_true hpass h hh

/-- Witness for C1 at a concrete episode: record `[7]`, `div_start = 1`,
an episode that claimed candidates `1` and `2` and stored candidate `2`. -/
theorem c1_witness :
    ((1 : Nat) : Int) ≤ traceResult 1 ⟨2, [1]⟩ ∧
      ∀ h ∈ [(7 : Int)], Int.tmod h (traceResult 1 ⟨2, [1]⟩) ≠ 0 :=
  c1 [7] 1 (by norm_num) (by decide) ⟨2, [1]⟩ ⟨by decide, by decide⟩

/-- Claim C2: on a cache miss, a record containing a zero hash value gets
the sentinel result `0` for every `div_start` and every fuel budget (in
particular fuel `0`, showing the search engine is never invoked), `0` is
appended to the cache, and the min/max trackers are untouched. -/
theorem c2 (fuel ds : Nat) (st : RunState) (hashes : List Int)
    (heof : st.cacheEntries.length ≤ st.cachePos) (hz : (0 : Int) ∈ hashes) :
    processRecord fuel ds st hashes = .ok
      { st with divs_found := st.divs_found ++ [0],
                cacheEntries := st.cacheEntries ++ [0],
                cachePos := st.cachePos + 1 } := by
  rw [processRecord, if_neg (by omega), if_pos (contains_iff_mem.mpr hz)]

/-- Witness for C2: the record `[5, 0]` with an exhausted cache and zero
fuel resolves to sentinel `0`, which is appended to the cache. -/
theorem c2_witness :
    processRecord 0 1 (initState []) [5, 0]
      = .ok ⟨[0], 2147483647, -1, [0], 1⟩ :=
  c2 0 1 (initState []) [5, 0] (by decide) (by decide)

/-- Claim C5: if any rebased value exceeds 65535 the encoder stops with the
fatal `assert!` panic (`.fatal .assertOverflow`), an abort distinct from
every recoverable `Err(..)` outcome (`.ioErr`). -/
theorem c5 (m : Int) (divs : List Int)
    (hover : ∃ d ∈ divs, 65535 < encodeValue m d) :
    encode m divs = .error (.fatal .assertOverflow) ∧
      ∀ k, encode m divs ≠ .error (.ioErr k) := by
  have main := encode_overflow hover
  refine ⟨main, ?_⟩
  intro k hcon
  rw [main] at hcon
  exact RunError.noConfusion (Except.error.inj hcon)

/-- Witness for C5: with tracked minimum `1`, the raw result `70000`
rebases to `70000 > 65535` and the encoder aborts. -/
theorem c5_witness :
    encode 1 [70000] = .error (.fatal .assertOverflow) ∧
      ∀ k, encode 1 [70000] ≠ .error (.ioErr k) :=
  c5 1 [70000] ⟨70000, by decide, by decide⟩

/-- Claim C7: for every window index `ci < 4`, when the input holds at
least `words_count` full 45000-value rows the reader succeeds and the
window sample holds exactly the columns
`[ci * 8000, ci * 8000 + 8000)` of every row (`sample[i*8000+j] =
file[i*45000 + ci*8000 + j]`); when fewer values are available the run
fails with the `InDbRead` read-failure.  (Seek failures cannot occur in
the pure embedding, where repositioning is total.) -/
theorem c7 (file : List Int) (wc ci : Nat) (hci : ci < 4) :
    (45000 * wc ≤ file.length →
      ∃ sample, readWindow file wc (ci * 8000) = .ok sample ∧
        sample.length = 8000 * wc ∧
        ∀ i j, i < wc → j < 8000 →
          sample[8000 * i + j]? = file[45000 * i + (ci * 8000 + j)]?) ∧
    (file.length < 45000 * wc →
      readWindow file wc (ci * 8000) = .error (.ioErr .inDbRead)) := by
  refine ⟨?_, ?_⟩
  · intro h
    exact readWindow_ok wc file (ci * 8000) (by omega) h
  · intro h
    exact readWindow_short wc file (ci * 8000) (by omega) h

/-- Witness for C7: window `1` of an all-sevens one-row input is read
successfully, and reading one row from an empty input fails with the
read-failure error. -/
theorem c7_witness :
    (∃ sample, readWindow (List.replicate 45000 (7 : Int)) 1 (1 * 8000)
        = .ok sample ∧
      sample.length = 8000 * 1 ∧
      ∀ i j, i < 1 → j < 8000 →
        sample[8000 * i + j]?
          = (List.replicate 45000 (7 : Int))[45000 * i + (1 * 8000 + j)]?) ∧
    readWindow [] 1 (1 * 8000) = .error (.ioErr .inDbRead) :=
  ⟨(c7 (List.replicate 45000 (7 : Int)) 1 1 (by norm_num)).1
      (by rw [List.length_replicate]),
   (c7 [] 1 1 (by norm_num)).2 (by decide)⟩

/-- Claim C8: for a one-row input whose 45000 hash values all equal `7`,
with `div_start = 1`, one worker, window size 8000 and 4 windows, every
record resolves to divisor `2`, and the final output is exactly 32000
16-bit values all equal to `1`. -/
theorem c8 :
    (∃ st, runWindows (List.replicate 45000 (7 : Int)) 1 1 2 [0, 1, 2, 3]
        (initState []) = .ok st ∧ st.divs_found = List.replicate 32000 2) ∧
    fullRun (List.replicate 45000 (7 : Int)) 1 2 []
      = .ok (List.replicate 32000 1) := by
  refine ⟨⟨⟨List.replicate 32000 2, 2, 2, List.replicate 32000 2, 32000⟩,
    ?_, rfl⟩, fullRun_replicate7⟩
  rw [runWindows_eq _ _ _ _ _ _ _ windowsRecords_replicate]
  exact processRecords_rep7 32000 (by norm_num)

/-- Claim C9: with `div_start = 0` the very first candidate the search
claims is `0` and the remainder test immediately takes the
division-by-zero branch (a fatal panic) on any nonempty record, while for
every start divisor `≥ 1` all candidates are `≥ 1` and that branch is
unreachable for any fuel budget. -/
theorem c9 (hashes : List Int) (hne : hashes ≠ [])
    (hz : (0 : Int) ∉ hashes) :
    (∀ fuel, searchDiv hashes 0 (fuel + 1) = .error .divByZero) ∧
    (∀ (d : Int) (fuel : Nat), 1 ≤ d →
      searchDiv hashes d fuel ≠ .error .divByZero) := by
  refine ⟨?_, ?_⟩
  · intro fuel
    rw [searchDiv, divPasses_zero hne]
  · intro d fuel hd
    exact searchDiv_ne_divByZero hd

/-- Witness for C9: on the record `[7]` the search panics at start divisor
`0` and never takes the division-by-zero branch from start divisor `1`. -/
theorem c9_witness :
    searchDiv [(7 : Int)] 0 1 = .error .divByZero ∧
      searchDiv [(7 : Int)] 1 5 ≠ .error .divByZero :=
  ⟨(c9 [7] (by decide) (by decide)).1 0,
   (c9 [7] (by decide) (by decide)).2 1 5 (by norm_num)⟩

/-- Counterexample to claim C3 as stated: in a resumed run whose cache file
holds the negative value `-5` (accepted verbatim as a raw result), the
claim's global minimum over all non-sentinel raw results is `-5`, so the
claim predicts output `[1, 8]` for raw results `[-5, 2]`; the code's
tracked minimum excludes non-positive values, giving output `[65530, 1]`. -/
theorem c3_counterexample :
    ∃ st, processRecords 2 2 (initState [-5]) [[7], [7]] = .ok st ∧
      encode st.min_div st.divs_found = .ok [65530, 1] ∧
      claimEncode st.divs_found = [1, 8] ∧
      ([65530, 1] : List Nat) ≠ [1, 8] := by
  refine ⟨⟨[-5, 2], 2, 2, [-5, 2], 2⟩, rfl, rfl, rfl, by decide⟩

/-- Claim C3 (amended): the encoder maps sentinel `0` to `0` and every
non-sentinel `v` to `v - global_min + 1` reduced to 16 bits, where
`global_min` is the minimum over all POSITIVE raw results — every
non-positive value, not only the sentinel, is excluded from the min/max
tracking; in particular the minimum positive result maps to `1`. -/
theorem c3_amended (fuel ds : Nat) (hds : 1 ≤ ds) (c0 : List Int)
    (recs : List (List Int)) (st : RunState)
    (hrun : processRecords fuel ds (initState c0) recs = .ok st) :
    st.min_div = minPositive st.divs_found ∧
    st.max_div = maxPositive st.divs_found ∧
    (∀ out, encode st.min_div st.divs_found = .ok out →
      out = st.divs_found.map
        (fun d => (Int.emod (encodeValue st.min_div d) 65536).toNat)) ∧
    ∀ d ∈ st.divs_found, 0 < d → d ≤ 2147483647 →
      (∀ e ∈ st.divs_found, 0 < e → d ≤ e) →
      encodeValue st.min_div d = 1 := by
  obtain ⟨R, hmap, hst⟩ := processRecords_char fuel ds hds recs c0 st hrun
  have hmin : st.min_div = minPositive st.divs_found := by
    rw [hst, minPositive]
    exact gminFold_eq_filter _ _
  have hmax : st.max_div = maxPositive st.divs_found := by
    rw [hst, maxPositive]
    exact gmaxFold_eq_filter _ _
  refine ⟨hmin, hmax, fun out hout => encode_ok_map hout, ?_⟩
  intro d hd hdpos hdle hdmin
  have hmd : st.min_div = d := by
    rw [hmin, minPositive]
    refine foldl_min_eq_min ?_ ?_ hdle
    · rw [List.mem_filter]
      exact ⟨hd, by simpa using hdpos⟩
    · intro x hx
      rw [List.mem_filter] at hx
      exact hdmin x hx.1 (by simpa using hx.2)
  rw [hmd, encodeValue, if_neg (by omega)]
  omega

/-- Witness for the amended C3: a fresh run over the single record `[7]`
with `div_start = 2` produces raw results `[2]` with tracked minimum `2`;
the minimum positive result rebases to `1`. -/
theorem c3_witness :
    (2 : Int) = minPositive [2] ∧ (2 : Int) = maxPositive [2] ∧
    (∀ out, encode 2 [2] = .ok out →
      out = [(2 : Int)].map
        (fun d => (Int.emod (encodeValue 2 d) 65536).toNat)) ∧
    (∀ d ∈ [(2 : Int)], 0 < d → d ≤ 2147483647 →
      (∀ e ∈ [(2 : Int)], 0 < e → d ≤ e) → encodeValue 2 d = 1) :=
  c3_amended 2 2 (by norm_num) [] [[7]] ⟨[2], 2, 2, [2], 1⟩ rfl

/-- Claim C4: the run produces identical final output whether it completes
in a single pass or is interrupted after its first `N` records and resumed
with the intact cache file, under the same configuration (the embedded
fixed window geometry, the same start divisor `≥ 1`, and the same
deterministic search budget, so recomputed records yield the same
results). -/
theorem c4 (file : List Int) (ds fuel N : Nat) (out : List Nat)
    (c : List Int) (hds : 1 ≤ ds)
    (hfull : fullRun file ds fuel [] = .ok out)
    (hint : interruptedRun file ds fuel N = .ok c) :
    fullRun file ds fuel c = .ok out := by
  rw [fullRun] at hfull
  cases hrw : runWindows file (file.length / 45000) ds fuel [0, 1, 2, 3]
      (initState []) with
  | error e => rw [hrw] at hfull; simp at hfull
  | ok stF =>
    rw [hrw] at hfull
    have henc : encode stF.min_div stF.divs_found = .ok out := hfull
    obtain ⟨recs, hwr⟩ := runWindows_ok_windows _ _ _ _ _ _ _ hrw
    have hpr : processRecords fuel ds (initState []) recs = .ok stF := by
      rw [← runWindows_eq _ _ _ _ _ _ _ hwr]
      exact hrw
    obtain ⟨R, hmapR, hstF⟩ := processRecords_char fuel ds hds recs [] stF hpr
    have hmapR' : mapExcept (freshResult fuel ds) recs = .ok R := by
      rwa [(show List.length ([] : List Int) = 0 from rfl), List.drop_zero]
        at hmapR
    rw [List.take_nil, List.nil_append] at hstF
    have hlenR : R.length = recs.length := mapExcept_ok_length hmapR'
    -- unpack the interrupted run: its cache is the first N fresh results
    rw [interruptedRun] at hint
    have hpipe : pipelineRecords file = .ok recs := hwr
    rw [hpipe] at hint
    have hint2 : (match processRecords fuel ds (initState []) (recs.take N) with
      | Except.error e => Except.error e
      | Except.ok st => Except.ok st.cacheEntries) = .ok c := hint
    cases hpI : processRecords fuel ds (initState []) (recs.take N) with
    | error e => rw [hpI] at hint2; simp at hint2
    | ok stI =>
      rw [hpI] at hint2
      have hcI : stI.cacheEntries = c := Except.ok.inj hint2
      obtain ⟨R2, hmapR2, hstI⟩ := processRecords_char fuel ds hds
        (recs.take N) [] stI hpI
      have hmapR2' : mapExcept (freshResult fuel ds) (recs.take N)
          = .ok R2 := by
        rwa [(show List.length ([] : List Int) = 0 from rfl), List.drop_zero]
          at hmapR2
      have hR2 : R2 = R.take N := by
        have h2 := mapExcept_ok_take hmapR' N
        rw [hmapR2'] at h2
        exact Except.ok.inj h2
      have hc : c = R.take N := by
        rw [← hcI, hstI, hR2]
        rfl
      -- the resumed run
      rw [fullRun, runWindows_eq file (file.length / 45000) ds fuel
        [0, 1, 2, 3] (initState c) recs hwr]
      have hmapdrop : mapExcept (freshResult fuel ds) (recs.drop c.length)
          = .ok (R.drop c.length) := mapExcept_ok_drop hmapR' c.length
      have hres := processRecords_run_init fuel ds hds recs c
        (R.drop c.length) hmapdrop
      have hkey : c.take recs.length ++ R.drop c.length = R := by
        rw [hc, List.length_take]
        have h1 : (R.take N).take recs.length = R.take N :=
          List.take_of_length_le (by rw [List.length_take]; omega)
        rw [h1]
        rcases Nat.le_total N R.length with hN | hN
        · rw [Nat.min_eq_left (by omega), List.take_append_drop]
        · rw [Nat.min_eq_right (by omega), List.take_of_length_le hN,
            List.drop_length, List.append_nil]
      rw [hkey] at hres
      rw [hres]
      have hfin : encode (gminFold 2147483647 R) R = .ok out := by
        rw [hstF] at henc
        exact henc
      exact hfin

/-- Witness for C4: the all-sevens run interrupted after its first 8000
records leaves cache `[2, 2, ...]`; resuming from that cache yields the
same 32000-value output as the uninterrupted run. -/
theorem c4_witness :
    fullRun (List.replicate 45000 (7 : Int)) 1 2 []
      = .ok (List.replicate 32000 1) ∧
    interruptedRun (List.replicate 45000 (7 : Int)) 1 2 8000
      = .ok (List.replicate 8000 2) ∧
    fullRun (List.replicate 45000 (7 : Int)) 1 2 (List.replicate 8000 2)
      = .ok (List.replicate 32000 1) :=
  ⟨fullRun_replicate7, interruptedRun_replicate7,
   c4 (List.replicate 45000 (7 : Int)) 1 2 8000 (List.replicate 32000 1)
     (List.replicate 8000 2) (le_refl 1) fullRun_replicate7
     interruptedRun_replicate7⟩

/-- Claim C6: starting from an empty cache file, after any prefix of the
records has been processed the cache file holds exactly one 32-bit value
per completed record, in strict processing order — it is identical to the
in-memory results list, whose length equals the number of completed
records; each fresh result was appended before the next record began. -/
theorem c6 (fuel ds k : Nat) (hds : 1 ≤ ds) (recs : List (List Int))
    (st : RunState)
    (hrun : processRecords fuel ds (initState []) (recs.take k) = .ok st) :
    st.cacheEntries = st.divs_found ∧
      st.divs_found.length = (recs.take k).length := by
  obtain ⟨R, hmap, hst⟩ := processRecords_char fuel ds hds (recs.take k) [] st hrun
  have hmap' : mapExcept (freshResult fuel ds) (recs.take k) = .ok R := by
    rwa [(show List.length ([] : List Int) = 0 from rfl), List.drop_zero] at hmap
  rw [hst, List.take_nil, List.nil_append]
  exact ⟨rfl, mapExcept_ok_length hmap'⟩

/-- Witness for C6: after processing the first record of `[[7], [9]]` from
an empty cache, the cache holds exactly the one produced result. -/
theorem c6_witness :
    ([2] : List Int) = [2] ∧
      ([2] : List Int).length = ([[(7 : Int)], [9]].take 1).length :=
  c6 2 1 1 (le_refl 1) [[7], [9]] ⟨[2], 2, 2, [2], 1⟩ rfl

/-- Claim C10: a negative 32-bit value `v` read from the cache is accepted
verbatim as a record result, is excluded from the running minimum and
maximum by the `cached_div > 0` guard, and at encoding time its rebased
value `v - global_min + 1` is negative yet passes the encoder's assertion
(which only bounds values from above), so it is written to the output as
that value reduced modulo 2^16. -/
theorem c10 (v : Int) (hv : v < 0) :
    ∃ st, processRecords 2 2 (initState [v]) [[7], [7]] = .ok st ∧
      st.divs_found = [v, 2] ∧ st.min_div = 2 ∧ st.max_div = 2 ∧
      encodeValue st.min_div v = v - 1 ∧ v - 1 < 0 ∧
      encode st.min_div st.divs_found
        = .ok [(Int.emod (v - 1) 65536).toNat, 1] := by
  have hnv : ¬ (0 : Int) < v := by omega
  have h1 : processRecord 2 2 (initState [v]) [7]
      = .ok ⟨[v], 2147483647, -1, [v], 1⟩ := by
    rw [processRecord, if_pos (by simp [initState])]
    simp only [initState, List.getD_cons_zero, List.nil_append]
    rw [gminStep, gmaxStep,
      if_neg (by omega : ¬ ((0 : Int) < v ∧ v < 2147483647)),
      if_neg (by omega : ¬ ((0 : Int) < v ∧ -1 < v))]
  have h2 : processRecord 2 2 (⟨[v], 2147483647, -1, [v], 1⟩ : RunState) [7]
      = .ok ⟨[v, 2], 2, 2, [v, 2], 2⟩ := by
    rw [processRecord, if_neg (by norm_num), if_neg (by decide),
      (show searchDiv [(7 : Int)] ((2 : Nat) : Int) 2 = .ok 2 from rfl)]
    norm_num
  have he : encodeValue 2 v = v - 1 := by
    rw [encodeValue, if_neg (by omega)]
    ring
  have henc2 : encode 2 [(2 : Int)] = .ok [1] := rfl
  refine ⟨⟨[v, 2], 2, 2, [v, 2], 2⟩, ?_, rfl, rfl, rfl, he, by omega, ?_⟩
  · rw [processRecords_cons_ok h1, processRecords_cons_ok h2, processRecords]
  · rw [encode, he, if_pos (by omega), henc2]

/-- Witness for C10 at `v = -5`: the cached `-5` is accepted, excluded from
min/max, rebases to `-6`, and is emitted as `65530 = -6 mod 2^16`. -/
theorem c10_witness :
    ∃ st, processRecords 2 2 (initState [-5]) [[7], [7]] = .ok st ∧
      st.divs_found = [-5, 2] ∧ st.min_div = 2 ∧ st.max_div = 2 ∧
      encodeValue st.min_div (-5) = -5 - 1 ∧ (-5 : Int) - 1 < 0 ∧
      encode st.min_div st.divs_found
        = .ok [(Int.emod (-5 - 1) 65536).toNat, 1] :=
  c10 (-5) (by norm_num)

end HolaDict

